import Mathlib

/-
Verification development for the BN/ATI report builder
(src/BN_ATI_REPORT/scripts/build_report.py).

The pipeline core is embedded shallowly: tables are lists of records of
string fields, the numeric measure is an extended rational (finite value,
positive or negative infinity, or NaN) mirroring the float column produced
by pandas.to_numeric, and each stage of the script becomes a pure function
on those lists.  Python string primitives that the script relies on
(str.lower, str.strip, sorted, "sep".join, dict built from pairs) are
re-implemented at character level so that every definition evaluates by
kernel reduction.
-/

/- ------------------------------------------------------------------ -/
/- String primitives (models of the Python built-ins used by the code) -/
/- ------------------------------------------------------------------ -/

/-- Model of str.lower on one character (the data involved is ASCII). -/
def lowerChar (c : Char) : Char :=
  if 65 ≤ c.toNat ∧ c.toNat ≤ 90 then Char.ofNat (c.toNat + 32) else c

/-- Model of str.lower. -/
def lowerStr (s : String) : String := ⟨s.data.map lowerChar⟩

/-- Whitespace test used by str.strip. -/
def isWs (c : Char) : Bool := c = ' ' ∨ c = '\t' ∨ c = '\n' ∨ c = '\r'

/-- Model of str.strip: drop leading and trailing whitespace. -/
def trimStr (s : String) : String :=
  ⟨((s.data.dropWhile isWs).reverse.dropWhile isWs).reverse⟩

/-- Lexicographic order on character lists by code point, as Python compares
strings. -/
def lexLe : List Char → List Char → Bool
  | [], _ => true
  | _ :: _, [] => false
  | a :: as, b :: bs =>
    if a.toNat < b.toNat then true
    else if a.toNat = b.toNat then lexLe as bs
    else false

/-- Model of Python string comparison. -/
def strLe (a b : String) : Bool := lexLe a.data b.data

/-- Model of "sep".join(items). -/
def joinSep (sep : String) : List String → String
  | [] => ""
  | [a] => a
  | a :: b :: rest => a ++ sep ++ joinSep sep (b :: rest)

/- ------------------------------------------------------------------ -/
/- Generic list machinery                                              -/
/- ------------------------------------------------------------------ -/

variable {α : Type} {β : Type}

/-- Worker for first-occurrence deduplication; seen accumulates values
already kept. -/
def dedupFirstAux [DecidableEq α] (seen : List α) : List α → List α
  | [] => []
  | a :: l => if a ∈ seen then dedupFirstAux seen l else a :: dedupFirstAux (a :: seen) l

/-- Keep the first occurrence of every value, dropping later duplicates:
model of pandas drop_duplicates (and of the final drop_duplicates over whole
rows). -/
def dedupFirst [DecidableEq α] (l : List α) : List α := dedupFirstAux [] l

/-- Insert a string into an ascending list, used to model Python sorted. -/
def insertLe (a : String) : List String → List String
  | [] => [a]
  | b :: l => if strLe a b then a :: b :: l else b :: insertLe a l

/-- Model of Python sorted() on strings (ascending code-point order). -/
def sortStrings (l : List String) : List String := l.foldr insertLe []

/-- Model of a Python dict built as dict(zip(keys, values)) and queried with
.map: bindings are inserted left to right and a later binding for the same
key overwrites an earlier one. -/
def dictOfPairs (ps : List (String × String)) : String → Option String :=
  ps.foldl (fun f p => fun k => if k = p.1 then some p.2 else f k) (fun _ => none)

/-- Lines 63-65, iter_chunks: successive slices items[i:i+size]; the fuel
argument bounds the recursion and items.length is always enough fuel for a
positive size. -/
def iter_chunksAux (size : Nat) : Nat → List α → List (List α)
  | _, [] => []
  | 0, _ :: _ => []
  | fuel + 1, a :: l => ((a :: l).take size) :: iter_chunksAux size fuel ((a :: l).drop size)

/-- Lines 63-65: the ordered chunks of a list, chunk size as in the source. -/
def iter_chunks (items : List α) (size : Nat) : List (List α) :=
  iter_chunksAux size items.length items

/- ------------------------------------------------------------------ -/
/- Numeric model: the float column produced by pandas.to_numeric       -/
/- ------------------------------------------------------------------ -/

/-- Fueled Euclidean gcd (kernel-computable). -/
def gcdFuel : Nat → Nat → Nat → Nat
  | 0, a, _ => a
  | fuel + 1, a, b => if b = 0 then a else gcdFuel fuel b (a % b)

/-- A rational number kept in lowest terms by the normRat constructor. -/
structure MyRat where
  num : Int
  den : Nat
deriving DecidableEq

/-- Normalising constructor for MyRat. -/
def normRat (n : Int) (d : Nat) : MyRat :=
  if d = 0 then ⟨0, 1⟩
  else
    let g := gcdFuel (d + 1) n.natAbs d
    if g = 0 then ⟨0, 1⟩ else ⟨n / (g : Int), d / g⟩

/-- Exact addition of finite values. -/
def MyRat.add (a b : MyRat) : MyRat :=
  normRat (a.num * (b.den : Int) + b.num * (a.den : Int)) (a.den * b.den)

/-- An extended numeric value as held by the float column: a finite value,
an infinity of either sign, or NaN. -/
inductive NumVal where
  | val : MyRat → NumVal
  | inf : NumVal
  | neginf : NumVal
  | nan : NumVal
deriving DecidableEq

/-- IEEE-style addition on the extended values: NaN is absorbing and
opposite infinities give NaN. -/
def NumVal.add : NumVal → NumVal → NumVal
  | .nan, _ => .nan
  | _, .nan => .nan
  | .inf, .neginf => .nan
  | .neginf, .inf => .nan
  | .inf, _ => .inf
  | _, .inf => .inf
  | .neginf, _ => .neginf
  | _, .neginf => .neginf
  | .val a, .val b => .val (a.add b)

/-- The float 0.0. -/
def zeroNum : NumVal := .val (normRat 0 1)

/-- Finiteness of an extended value. -/
def NumVal.isFinite : NumVal → Bool
  | .val _ => true
  | _ => false

/-- Model of Series.fillna(0.0): NaN becomes 0, every other value is kept
(in particular infinities pass through). -/
def fillnaZero : NumVal → NumVal
  | .nan => zeroNum
  | v => v

/-- Value of an unsigned digit string. -/
def digitsToNat (cs : List Char) : Nat := cs.foldl (fun n c => 10 * n + (c.toNat - 48)) 0

/-- Model of the parser behind pd.to_numeric(errors="coerce") on the lexemes
relevant here: after stripping and lowercasing, an optionally signed decimal
integer or decimal fraction parses to its finite value and the infinity
lexemes inf / infinity parse to the corresponding infinity; every other
string (including the NaN lexemes and anything unparseable) is coerced, i.e.
returned as none, which downstream fillna turns into 0. -/
def parseNumeric (s : String) : Option NumVal :=
  let core : List Char → Option NumVal := fun cs =>
    if cs = "inf".data ∨ cs = "infinity".data then some .inf
    else
      let ip := cs.takeWhile (fun c => c ≠ '.')
      let rest := cs.dropWhile (fun c => c ≠ '.')
      match rest with
      | [] =>
        if cs ≠ [] ∧ cs.all Char.isDigit then some (.val (normRat (digitsToNat cs) 1)) else none
      | _ :: frac =>
        if (ip ≠ [] ∨ frac ≠ []) ∧ ip.all Char.isDigit ∧ frac.all Char.isDigit then
          some (.val (normRat (digitsToNat ip * 10 ^ frac.length + digitsToNat frac) (10 ^ frac.length)))
        else none
  match (lowerStr (trimStr s)).data with
  | '+' :: cs => core cs
  | '-' :: cs =>
    (core cs).map (fun v =>
      match v with
      | .inf => .neginf
      | .val q => .val ⟨-q.num, q.den⟩
      | w => w)
  | cs => core cs

/-- Line 97: pd.to_numeric(dfB[metric], errors="coerce").fillna(0.0) applied
to one cell. -/
def metricValue (s : String) : NumVal := (parseNumeric s).getD zeroNum

/- ------------------------------------------------------------------ -/
/- Substring matching: the regex alternation of escaped literals       -/
/- ------------------------------------------------------------------ -/

/-- Occurrence of t as a contiguous substring of s (the needles are
re.escaped, so the pattern matches literally). -/
def substrB (t : List Char) : List Char → Bool
  | [] => List.isPrefixOf t []
  | c :: rest => List.isPrefixOf t (c :: rest) || substrB t rest

/-- Model of re.search with the alternation pattern of the escaped chunk
identifiers (lines 167-172): the engine scans start positions left to right
and at each position tries the alternatives in chunk order, so the result is
the matched alternative of the leftmost match (ties broken by chunk order);
none when no alternative occurs in the haystack.  Series.str.contains is the
isSome of this and Series.str.extract returns this first match. -/
def scanAlt (ts : List String) : List Char → Option String
  | [] => ts.find? (fun t => List.isPrefixOf t.data [])
  | c :: rest =>
    match ts.find? (fun t => List.isPrefixOf t.data (c :: rest)) with
    | some t => some t
    | none => scanAlt ts rest

/- ------------------------------------------------------------------ -/
/- Data model                                                          -/
/- ------------------------------------------------------------------ -/

/-- Line 32: the regex chunk size. -/
def TN_REGEX_CHUNK : Nat := 400

/-- Line 35: the normalized weak tracking-number denylist (a Python set;
only membership is ever used). -/
def WEAK_BN_VALUES : List String :=
  ["c", "1", "0", "NA", "na", "-", "REDACTED", "[REDACTED]", "TBD-PM-00"].map lowerStr

/-- A row of table A (briefing-note tracking numbers). -/
structure ARow where
  owner_org : String
  tracking_number : String
deriving DecidableEq

/-- A row of table B (informal requests); request_number is the source's
"Request Number" column, informal_requests its "Number of Informal
Requests", unique_identifier its "Unique Identifier". -/
structure BRow where
  owner_org : String
  request_number : String
  informal_requests : String
  unique_identifier : String
deriving DecidableEq

/-- A row of table C (ATI summaries). -/
structure CRow where
  owner_org : String
  request_number : String
  summary_en : String
  summary_fr : String
deriving DecidableEq

/-- One aggregate record of dfB_agg (lines 98-104); the lowercase join key
request_number_lc is derived from request_number by aggKey. -/
structure AggRec where
  owner_org : String
  request_number : String
  informal_requests_sum : NumVal
  unique_identifiers : String
deriving DecidableEq

/-- One row of the merged table dfBC (lines 115-124); the derived __haystack
column is the function haystack below. -/
structure JoinedRow where
  owner_org : String
  request_number : String
  informal_requests_sum : NumVal
  unique_identifiers : String
  summary_en : String
  summary_fr : String
deriving DecidableEq

/-- One emitted match row (lines 174-177). -/
structure MatchRec where
  owner_org : String
  tracking_number : String
  request_number : String
  informal_requests_sum : NumVal
  unique_identifiers : String
  summary_en : String
  summary_fr : String
deriving DecidableEq

/- ------------------------------------------------------------------ -/
/- AggregationStage                                                    -/
/- ------------------------------------------------------------------ -/

/-- Lines 59-61, agg_unique_identifiers: strip every value, drop values that
are empty after stripping, then join the sorted set with "; " (empty string
for an all-blank group). -/
def agg_unique_identifiers (series : List String) : String :=
  if ((series.map trimStr).filter (fun x => x != "")).isEmpty then ""
  else joinSep "; " (sortStrings (dedupFirst ((series.map trimStr).filter (fun x => x != ""))))

/-- The distinct groupby keys (owner_org, Request Number) of table B, with
original casing.  pandas emits the groups sorted by key; every property
stated below is insensitive to the order of the aggregate records, so
first-occurrence order is used here. -/
def bKeys (b : List BRow) : List (String × String) :=
  dedupFirst (b.map (fun x => (x.owner_org, x.request_number)))

/-- The rows of one groupby group, in input order. -/
def bGroup (b : List BRow) (k : String × String) : List BRow :=
  b.filter (fun x => decide (x.owner_org = k.1 ∧ x.request_number = k.2))

/-- Lines 98-104: dfB_agg, one record per distinct (owner_org, Request
Number) pair, with the summed numeric measure and the unique-identifier
reduction. -/
def aggregateB (b : List BRow) : List AggRec :=
  (bKeys b).map (fun k =>
    { owner_org := k.1
      request_number := k.2
      informal_requests_sum :=
        ((bGroup b k).map (fun x => metricValue x.informal_requests)).foldl NumVal.add zeroNum
      unique_identifiers := agg_unique_identifiers ((bGroup b k).map (fun x => x.unique_identifier)) })

/- ------------------------------------------------------------------ -/
/- JoinStage                                                           -/
/- ------------------------------------------------------------------ -/

/-- Line 104: the join key of an aggregate record, (owner_org,
request_number_lc). -/
def aggKey (g : AggRec) : String × String := (g.owner_org, lowerStr g.request_number)

/-- Line 113: the join key of a C row, (owner_org, request_number_lc). -/
def cKey (r : CRow) : String × String := (r.owner_org, lowerStr r.request_number)

/-- Lines 115-123: the left merge of C with dfB_agg on ["owner_org",
"request_number_lc"].  Each C row is paired with every aggregate record
sharing its join key (in aggregate order); a C row with no matching
aggregate record yields exactly one row whose informal_requests_sum is 0 and
whose unique_identifiers is "" (the fillna defaults of lines 122-123).
Line 123 re-coerces the merged sum column, so a NaN sum also becomes 0. -/
def joinBlock (aggs : List AggRec) (r : CRow) : List JoinedRow :=
  if (aggs.filter (fun g => decide (aggKey g = cKey r))).isEmpty then
    [{ owner_org := r.owner_org, request_number := r.request_number,
       informal_requests_sum := zeroNum, unique_identifiers := "",
       summary_en := r.summary_en, summary_fr := r.summary_fr }]
  else
    (aggs.filter (fun g => decide (aggKey g = cKey r))).map (fun g =>
      { owner_org := r.owner_org, request_number := r.request_number,
        informal_requests_sum := fillnaZero g.informal_requests_sum,
        unique_identifiers := g.unique_identifiers,
        summary_en := r.summary_en, summary_fr := r.summary_fr })

/-- The whole merged table: the concatenation of the per-row blocks, in C
order. -/
def joinStage (aggs : List AggRec) (c : List CRow) : List JoinedRow :=
  c.flatMap (joinBlock aggs)

/-- Line 124: the derived __haystack column, (summary_en + " " +
summary_fr).lower(). -/
def haystack (r : JoinedRow) : String := lowerStr (r.summary_en ++ " " ++ r.summary_fr)

/- ------------------------------------------------------------------ -/
/- MatchStage                                                          -/
/- ------------------------------------------------------------------ -/

/-- Lines 143-147: a_org, the distinct (lowercased, original)
tracking-number pairs of one owner, in first-occurrence order
(drop_duplicates keeps the first of equal pairs). -/
def aPairs (a : List ARow) (org : String) : List (String × String) :=
  dedupFirst ((a.filter (fun x => decide (x.owner_org = org))).map
    (fun x => (lowerStr x.tracking_number, x.tracking_number)))

/-- Line 151: lut = dict(zip(a_org["tn_lc"], a_org["tracking_number"])). -/
def lut (a : List ARow) (org : String) : String → Option String :=
  dictOfPairs (aPairs a org)

/-- Line 160: tn_list, the non-empty lowercased tracking numbers in a_org
order. -/
def tnList (a : List ARow) (org : String) : List String :=
  ((aPairs a org).map (fun p => p.1)).filter (fun t => t != "")

/-- Lines 172-176: the output row built from one masked joined row; the
extracted first match tm is looked up in the lut for its canonical casing,
falling back to the matched lowercase text itself
(.map(lut).fillna(_match_lc)). -/
def emitMatch (lutF : String → Option String) (tm : String) (r : JoinedRow) : MatchRec :=
  { owner_org := r.owner_org
    tracking_number := (lutF tm).getD tm
    request_number := r.request_number
    informal_requests_sum := r.informal_requests_sum
    unique_identifiers := r.unique_identifiers
    summary_en := r.summary_en
    summary_fr := r.summary_fr }

/-- Lines 166-177, one chunk's block: the mask keeps the rows whose haystack
contains some chunk identifier; for each masked row str.extract yields the
first regex match and exactly one output row is emitted for the row. -/
def chunkMatches (lutF : String → Option String) (chunk : List String) (bc : List JoinedRow) :
    List MatchRec :=
  bc.filterMap (fun r => (scanAlt chunk (haystack r).data).map (fun tm => emitMatch lutF tm r))

/-- Lines 142-179 for a single owner, with the chunk size a parameter: the
owner is skipped when it has no joined rows or no non-empty identifiers
(lines 157-162), otherwise the per-chunk blocks are concatenated. -/
def ownerMatchesSized (size : Nat) (a : List ARow) (bc : List JoinedRow) (org : String) :
    List MatchRec :=
  let bcOrg := bc.filter (fun r => decide (r.owner_org = org))
  let tns := tnList a org
  if bcOrg.isEmpty || tns.isEmpty then []
  else (iter_chunks tns size).flatMap (fun chunk => chunkMatches (lut a org) chunk bcOrg)

/-- Line 139: orgs = sorted(set(A owners) intersected with set(joined
owners)). -/
def orgsOf (a : List ARow) (bc : List JoinedRow) : List String :=
  sortStrings (dedupFirst ((a.map (fun x => x.owner_org)).filter
    (fun o => decide (o ∈ bc.map (fun r => r.owner_org)))))

/-- Lines 138-190 with the chunk size a parameter: process the owners in
ascending order, concatenate their blocks and remove exact duplicate rows
(line 182, drop_duplicates keeps the first of equal rows). -/
def matchStageSized (size : Nat) (a : List ARow) (bc : List JoinedRow) : List MatchRec :=
  dedupFirst ((orgsOf a bc).flatMap (fun org => ownerMatchesSized size a bc org))

/-- The script's MatchStage, at the source's chunk size TN_REGEX_CHUNK. -/
def matchStage (a : List ARow) (bc : List JoinedRow) : List MatchRec :=
  matchStageSized TN_REGEX_CHUNK a bc

/- ------------------------------------------------------------------ -/
/- ClassificationStage                                                 -/
/- ------------------------------------------------------------------ -/

/-- Lines 193-195: a tracking number is weak when its stripped, lowercased
form belongs to the denylist. -/
def is_weak (v : String) : Bool := WEAK_BN_VALUES.contains (lowerStr (trimStr v))

/-- Line 197: df_weak. -/
def weakOf (l : List MatchRec) : List MatchRec :=
  l.filter (fun m => is_weak m.tracking_number)

/-- Line 198: df_strong. -/
def strongOf (l : List MatchRec) : List MatchRec :=
  l.filter (fun m => !(is_weak m.tracking_number))

/- ------------------------------------------------------------------ -/
/- Projections used to state the claims                                -/
/- ------------------------------------------------------------------ -/

/-- The fields a C row contributes verbatim to every joined row built from
it. -/
def cProj (r : CRow) : String × String × String × String :=
  (r.owner_org, r.request_number, r.summary_en, r.summary_fr)

/-- The same four fields of a joined row. -/
def jProj (j : JoinedRow) : String × String × String × String :=
  (j.owner_org, j.request_number, j.summary_en, j.summary_fr)

/-- Everything a match record carries except the tracking number: exactly
the fields copied from the joined row it was emitted for. -/
def mSourceProj (m : MatchRec) : String × String × NumVal × String × String × String :=
  (m.owner_org, m.request_number, m.informal_requests_sum, m.unique_identifiers,
   m.summary_en, m.summary_fr)

/-- The corresponding projection of a joined row. -/
def jSourceProj (j : JoinedRow) : String × String × NumVal × String × String × String :=
  (j.owner_org, j.request_number, j.informal_requests_sum, j.unique_identifiers,
   j.summary_en, j.summary_fr)

/- ------------------------------------------------------------------ -/
/- Helper lemmas: generic machinery                                    -/
/- ------------------------------------------------------------------ -/

theorem mem_dedupFirstAux [DecidableEq α] (l : List α) :
    ∀ (seen : List α) (a : α), a ∈ dedupFirstAux seen l ↔ (a ∈ l ∧ a ∉ seen) := by
  induction l with
  | nil => intro seen a; simp [dedupFirstAux]
  | cons b l ih =>
    intro seen a
    by_cases hb : b ∈ seen
    · rw [dedupFirstAux, if_pos hb, ih]
      constructor
      · rintro ⟨h1, h2⟩; exact ⟨List.mem_cons_of_mem _ h1, h2⟩
      · rintro ⟨h1, h2⟩
        rcases List.mem_cons.mp h1 with h1 | h1
        · subst h1; exact absurd hb h2
        · exact ⟨h1, h2⟩
    · rw [dedupFirstAux, if_neg hb]
      constructor
      · intro h
        rcases List.mem_cons.mp h with h | h
        · subst h; exact ⟨List.mem_cons_self _ _, hb⟩
        · rcases (ih _ _).mp h with ⟨h1, h2⟩
          exact ⟨List.mem_cons_of_mem _ h1, fun hs => h2 (List.mem_cons_of_mem _ hs)⟩
      · rintro ⟨h1, h2⟩
        rcases List.mem_cons.mp h1 with h1 | h1
        · subst h1; exact List.mem_cons_self _ _
        · by_cases hab : a = b
          · subst hab; exact List.mem_cons_self _ _
          · exact List.mem_cons_of_mem _ ((ih _ _).mpr
              ⟨h1, fun hs => (List.mem_cons.mp hs).elim hab h2⟩)

theorem mem_dedupFirst [DecidableEq α] (l : List α) (a : α) :
    a ∈ dedupFirst l ↔ a ∈ l := by
  rw [dedupFirst, mem_dedupFirstAux]; simp

theorem mem_insertLe (a b : String) (l : List String) :
    a ∈ insertLe b l ↔ (a = b ∨ a ∈ l) := by
  induction l with
  | nil => simp [insertLe]
  | cons c l ih =>
    by_cases h : strLe b c
    · simp [insertLe, h]
    · simp [insertLe, h, ih]
      tauto

theorem mem_sortStrings (a : String) (l : List String) :
    a ∈ sortStrings l ↔ a ∈ l := by
  induction l with
  | nil => simp [sortStrings]
  | cons b l ih =>
    show a ∈ insertLe b (sortStrings l) ↔ _
    rw [mem_insertLe, ih]
    simp

theorem dictOfPairs_append_single (ps : List (String × String)) (p : String × String)
    (k : String) :
    dictOfPairs (ps ++ [p]) k = if k = p.1 then some p.2 else dictOfPairs ps k := by
  simp [dictOfPairs, List.foldl_append]

theorem dictOfPairs_eq_getLast (ps : List (String × String)) (k : String) :
    dictOfPairs ps k =
      ((ps.filter (fun p => decide (p.1 = k))).getLast?).map (fun p => p.2) := by
  induction ps using List.reverseRecOn with
  | nil => simp [dictOfPairs]
  | append_singleton ps p ih =>
    rw [dictOfPairs_append_single, List.filter_append]
    by_cases h : k = p.1
    · simp [h]
    · have hne : ¬ (p.1 = k) := fun hh => h hh.symm
      simp [h, hne, ih]

theorem getLast?_all_eq {x : α} (l : List α) (hne : l ≠ []) (h : ∀ p ∈ l, p = x) :
    l.getLast? = some x := by
  induction l with
  | nil => exact absurd rfl hne
  | cons a t ih =>
    cases t with
    | nil => simp [h a (List.mem_cons_self _ _)]
    | cons b u =>
      rw [List.getLast?_cons_cons]
      exact ih (List.cons_ne_nil _ _) (fun p hp => h p (List.mem_cons_of_mem _ hp))

theorem length_filter_not_split (p : α → Bool) (l : List α) :
    (l.filter p).length + (l.filter (fun a => !(p a))).length = l.length := by
  induction l with
  | nil => simp
  | cons a t ih =>
    cases h : p a <;> simp [List.filter_cons, h] <;> omega

theorem length_filter_key_le_one [DecidableEq β] (f : α → β) (l : List α) (k : β)
    (h : (l.map f).Nodup) : (l.filter (fun x => decide (f x = k))).length ≤ 1 := by
  induction l with
  | nil => simp
  | cons a t ih =>
    rw [List.map_cons, List.nodup_cons] at h
    by_cases hk : f a = k
    · rw [List.filter_cons, if_pos (by simpa using hk)]
      have hnil : t.filter (fun x => decide (f x = k)) = [] := by
        rw [List.filter_eq_nil_iff]
        intro x hx
        simp only [decide_eq_true_eq]
        intro hfx
        exact h.1 (by rw [hk, ← hfx]; exact List.mem_map_of_mem f hx)
      simp [hnil]
    · rw [List.filter_cons, if_neg (by simpa using hk)]
      exact ih h.2

/- ------------------------------------------------------------------ -/
/- Helper lemmas: chunks                                               -/
/- ------------------------------------------------------------------ -/

theorem flatten_iter_chunksAux (size : Nat) (hs : 1 ≤ size) :
    ∀ (fuel : Nat) (l : List α), l.length ≤ fuel →
      (iter_chunksAux size fuel l).flatten = l := by
  intro fuel
  induction fuel with
  | zero =>
    intro l hl
    have : l = [] := List.eq_nil_of_length_eq_zero (Nat.le_zero.mp hl)
    subst this
    simp [iter_chunksAux]
  | succ n ih =>
    intro l hl
    match l with
    | [] => simp [iter_chunksAux]
    | a :: t =>
      have hd : ((a :: t).drop size).length ≤ n := by
        rw [List.length_drop, List.length_cons]
        rw [List.length_cons] at hl
        omega
      rw [iter_chunksAux, List.flatten_cons, ih _ hd]
      exact List.take_append_drop size (a :: t)

theorem flatten_iter_chunks (l : List α) (size : Nat) (hs : 1 ≤ size) :
    (iter_chunks l size).flatten = l :=
  flatten_iter_chunksAux size hs l.length l (Nat.le_refl _)

theorem exists_chunk_of_mem {l : List α} {x : α} (size : Nat) (hs : 1 ≤ size)
    (hx : x ∈ l) : ∃ c ∈ iter_chunks l size, x ∈ c := by
  rw [← flatten_iter_chunks l size hs] at hx
  exact List.mem_flatten.mp hx

theorem mem_of_mem_chunk {l c : List α} {x : α} (size : Nat) (hs : 1 ≤ size)
    (hc : c ∈ iter_chunks l size) (hx : x ∈ c) : x ∈ l := by
  rw [← flatten_iter_chunks l size hs]
  exact List.mem_flatten.mpr ⟨c, hc, hx⟩

/- ------------------------------------------------------------------ -/
/- Helper lemmas: the alternation scan                                 -/
/- ------------------------------------------------------------------ -/

theorem scanAlt_eq_some_mem (ts : List String) (s : List Char) (t : String)
    (h : scanAlt ts s = some t) : t ∈ ts := by
  induction s with
  | nil => exact List.mem_of_find?_eq_some h
  | cons c rest ih =>
    rw [scanAlt] at h
    cases hf : ts.find? (fun u => List.isPrefixOf u.data (c :: rest)) with
    | some u =>
      rw [hf] at h
      cases h
      exact List.mem_of_find?_eq_some hf
    | none =>
      rw [hf] at h
      exact ih h

theorem scanAlt_eq_some_substr (ts : List String) (s : List Char) (t : String)
    (h : scanAlt ts s = some t) : substrB t.data s = true := by
  induction s with
  | nil =>
    have := List.find?_some h
    simpa [substrB] using this
  | cons c rest ih =>
    rw [scanAlt] at h
    cases hf : ts.find? (fun u => List.isPrefixOf u.data (c :: rest)) with
    | some u =>
      rw [hf] at h
      cases h
      have := List.find?_some hf
      simp [substrB, this]
    | none =>
      rw [hf] at h
      simp [substrB, ih h]

theorem scanAlt_isSome_of (ts : List String) (s : List Char) (t : String)
    (ht : t ∈ ts) (hsub : substrB t.data s = true) : (scanAlt ts s).isSome = true := by
  induction s with
  | nil =>
    rw [scanAlt, List.find?_isSome]
    exact ⟨t, ht, by simpa [substrB] using hsub⟩
  | cons c rest ih =>
    rw [scanAlt]
    cases hf : ts.find? (fun u => List.isPrefixOf u.data (c :: rest)) with
    | some u => simp
    | none =>
      rw [substrB, Bool.or_eq_true] at hsub
      rcases hsub with hp | hr
      · exact absurd hp (by simpa using List.find?_eq_none.mp hf t ht)
      · exact ih hr

theorem scanAlt_isSome_iff (ts : List String) (s : List Char) :
    (scanAlt ts s).isSome = true ↔ ∃ t ∈ ts, substrB t.data s = true := by
  constructor
  · intro h
    rcases Option.isSome_iff_exists.mp h with ⟨t, ht⟩
    exact ⟨t, scanAlt_eq_some_mem ts s t ht, scanAlt_eq_some_substr ts s t ht⟩
  · rintro ⟨t, ht, hsub⟩
    exact scanAlt_isSome_of ts s t ht hsub

theorem scanAlt_isSome_eq_any (ts : List String) (s : List Char) :
    (scanAlt ts s).isSome = ts.any (fun t => substrB t.data s) := by
  cases h1 : (scanAlt ts s).isSome with
  | true =>
    rcases (scanAlt_isSome_iff ts s).mp h1 with ⟨t, ht, hsub⟩
    exact ((List.any_eq_true).mpr ⟨t, ht, hsub⟩).symm
  | false =>
    cases h2 : ts.any (fun t => substrB t.data s) with
    | true =>
      rcases List.any_eq_true.mp h2 with ⟨t, ht, hsub⟩
      have hcontra := (scanAlt_isSome_iff ts s).mpr ⟨t, ht, hsub⟩
      rw [h1] at hcontra
      exact hcontra
    | false => rfl

/- ------------------------------------------------------------------ -/
/- Helper lemmas: the match pipeline                                   -/
/- ------------------------------------------------------------------ -/

theorem mSourceProj_emitMatch (lutF : String → Option String) (tm : String) (r : JoinedRow) :
    mSourceProj (emitMatch lutF tm r) = jSourceProj r := rfl

theorem mem_chunkMatches (lutF : String → Option String) (chunk : List String)
    (bc : List JoinedRow) (m : MatchRec) :
    m ∈ chunkMatches lutF chunk bc ↔
      ∃ r ∈ bc, ∃ tm, scanAlt chunk (haystack r).data = some tm ∧
        m = emitMatch lutF tm r := by
  rw [chunkMatches, List.mem_filterMap]
  constructor
  · rintro ⟨r, hr, hsome⟩
    rcases Option.map_eq_some'.mp hsome with ⟨tm, htm, hemit⟩
    exact ⟨r, hr, tm, htm, hemit.symm⟩
  · rintro ⟨r, hr, tm, htm, hemit⟩
    exact ⟨r, hr, Option.map_eq_some'.mpr ⟨tm, htm, hemit.symm⟩⟩

theorem mem_ownerMatchesSized (size : Nat) (a : List ARow)
    (bc : List JoinedRow) (org : String) (m : MatchRec) :
    m ∈ ownerMatchesSized size a bc org ↔
      ∃ r ∈ bc, r.owner_org = org ∧
        ∃ chunk ∈ iter_chunks (tnList a org) size, ∃ tm,
          scanAlt chunk (haystack r).data = some tm ∧
          m = emitMatch (lut a org) tm r := by
  rw [ownerMatchesSized]
  by_cases hg : ((bc.filter (fun r => decide (r.owner_org = org))).isEmpty
      || (tnList a org).isEmpty) = true
  · rw [if_pos hg]
    simp only [List.not_mem_nil, false_iff]
    rintro ⟨r, hr, hro, chunk, hchunk, tm, hscan, hemit⟩
    rcases Bool.or_eq_true _ _ |>.mp hg with he | he
    · have hbc : bc.filter (fun r => decide (r.owner_org = org)) = [] :=
        List.isEmpty_iff.mp he
      have : r ∈ bc.filter (fun r => decide (r.owner_org = org)) :=
        List.mem_filter.mpr ⟨hr, by simpa using hro⟩
      rw [hbc] at this
      exact List.not_mem_nil r this
    · have htn : tnList a org = [] := List.isEmpty_iff.mp he
      rw [htn] at hchunk
      exact List.not_mem_nil chunk (by simp [iter_chunks, iter_chunksAux] at hchunk)
  · rw [if_neg hg]
    rw [List.mem_flatMap]
    constructor
    · rintro ⟨chunk, hchunk, hmc⟩
      rcases (mem_chunkMatches _ _ _ _).mp hmc with ⟨r, hr, tm, htm, hemit⟩
      rcases List.mem_filter.mp hr with ⟨hrbc, hro⟩
      exact ⟨r, hrbc, by simpa using hro, chunk, hchunk, tm, htm, hemit⟩
    · rintro ⟨r, hr, hro, chunk, hchunk, tm, htm, hemit⟩
      exact ⟨chunk, hchunk, (mem_chunkMatches _ _ _ _).mpr
        ⟨r, List.mem_filter.mpr ⟨hr, by simpa using hro⟩, tm, htm, hemit⟩⟩

theorem mem_matchStageSized (size : Nat) (a : List ARow) (bc : List JoinedRow)
    (m : MatchRec) :
    m ∈ matchStageSized size a bc ↔
      ∃ org ∈ orgsOf a bc, m ∈ ownerMatchesSized size a bc org := by
  rw [matchStageSized, mem_dedupFirst, List.mem_flatMap]

theorem mem_orgsOf (a : List ARow) (bc : List JoinedRow) (org : String) :
    org ∈ orgsOf a bc ↔
      org ∈ a.map (fun x => x.owner_org) ∧ org ∈ bc.map (fun r => r.owner_org) := by
  rw [orgsOf, mem_sortStrings, mem_dedupFirst, List.mem_filter]
  simp

theorem mem_tnList (a : List ARow) (org : String) (t : String) :
    t ∈ tnList a org ↔
      ((∃ x ∈ a, x.owner_org = org ∧ lowerStr x.tracking_number = t) ∧ t ≠ "") := by
  rw [tnList, List.mem_filter, List.mem_map]
  constructor
  · rintro ⟨⟨p, hp, hpt⟩, hne⟩
    rw [aPairs, mem_dedupFirst, List.mem_map] at hp
    rcases hp with ⟨x, hx, hpx⟩
    rcases List.mem_filter.mp hx with ⟨hxa, hxo⟩
    refine ⟨⟨x, hxa, by simpa using hxo, ?_⟩, by simpa using hne⟩
    rw [← hpt, ← hpx]
  · rintro ⟨⟨x, hx, hxo, hxt⟩, hne⟩
    refine ⟨⟨(lowerStr x.tracking_number, x.tracking_number), ?_, hxt⟩, by simpa using hne⟩
    rw [aPairs, mem_dedupFirst, List.mem_map]
    exact ⟨x, List.mem_filter.mpr ⟨hx, by simpa using hxo⟩, rfl⟩

theorem matchProj_iff (size : Nat) (hs : 1 ≤ size) (a : List ARow) (bc : List JoinedRow)
    (j : String × String × NumVal × String × String × String) :
    (∃ m ∈ matchStageSized size a bc, mSourceProj m = j) ↔
      ∃ org ∈ orgsOf a bc, ∃ r ∈ bc, r.owner_org = org ∧ jSourceProj r = j ∧
        ∃ t ∈ tnList a org, substrB t.data (haystack r).data = true := by
  constructor
  · rintro ⟨m, hm, hproj⟩
    rcases (mem_matchStageSized size a bc m).mp hm with ⟨org, horg, hmo⟩
    rcases (mem_ownerMatchesSized size a bc org m).mp hmo with
      ⟨r, hr, hro, chunk, hchunk, tm, hscan, hemit⟩
    refine ⟨org, horg, r, hr, hro, ?_, tm, ?_, scanAlt_eq_some_substr _ _ _ hscan⟩
    · rw [hemit, mSourceProj_emitMatch] at hproj
      exact hproj
    · exact mem_of_mem_chunk size hs hchunk (scanAlt_eq_some_mem _ _ _ hscan)
  · rintro ⟨org, horg, r, hr, hro, hproj, t, ht, hsub⟩
    rcases exists_chunk_of_mem size hs ht with ⟨chunk, hchunk, htc⟩
    rcases Option.isSome_iff_exists.mp (scanAlt_isSome_of chunk (haystack r).data t htc hsub)
      with ⟨tm, htm⟩
    refine ⟨emitMatch (lut a org) tm r, ?_, ?_⟩
    · exact (mem_matchStageSized size a bc _).mpr
        ⟨org, horg, (mem_ownerMatchesSized size a bc org _).mpr
          ⟨r, hr, hro, chunk, hchunk, tm, htm, rfl⟩⟩
    · rw [mSourceProj_emitMatch]
      exact hproj

/- ------------------------------------------------------------------ -/
/- Helper lemmas: the join                                             -/
/- ------------------------------------------------------------------ -/

theorem joinBlock_singleton (aggs : List AggRec) (r : CRow)
    (h : (aggs.map aggKey).Nodup) :
    ∃ j : JoinedRow, joinBlock aggs r = [j] ∧ jProj j = cProj r := by
  have hle := length_filter_key_le_one aggKey aggs (cKey r) h
  rw [joinBlock]
  cases hms : aggs.filter (fun g => decide (aggKey g = cKey r)) with
  | nil =>
    refine ⟨{ owner_org := r.owner_org, request_number := r.request_number,
              informal_requests_sum := zeroNum, unique_identifiers := "",
              summary_en := r.summary_en, summary_fr := r.summary_fr }, ?_, rfl⟩
    simp
  | cons g t =>
    rw [hms, List.length_cons] at hle
    have ht : t = [] := List.eq_nil_of_length_eq_zero (by omega)
    subst ht
    refine ⟨{ owner_org := r.owner_org, request_number := r.request_number,
              informal_requests_sum := fillnaZero g.informal_requests_sum,
              unique_identifiers := g.unique_identifiers,
              summary_en := r.summary_en, summary_fr := r.summary_fr }, ?_, rfl⟩
    simp

theorem joinStage_length_nodup (aggs : List AggRec) (c : List CRow)
    (h : (aggs.map aggKey).Nodup) : (joinStage aggs c).length = c.length := by
  induction c with
  | nil => rfl
  | cons r c ih =>
    rcases joinBlock_singleton aggs r h with ⟨j, hj, _⟩
    rw [joinStage, List.flatMap_cons, hj, ← joinStage]
    simp only [List.length_append, List.length_cons, List.length_nil, ih]
    omega

theorem joinStage_countP_nodup (aggs : List AggRec) (c : List CRow)
    (h : (aggs.map aggKey).Nodup) (r0 : CRow) :
    (joinStage aggs c).countP (fun j => decide (jProj j = cProj r0)) =
      c.countP (fun r => decide (cProj r = cProj r0)) := by
  induction c with
  | nil => rfl
  | cons r c ih =>
    rcases joinBlock_singleton aggs r h with ⟨j, hj, hjp⟩
    rw [joinStage, List.flatMap_cons, List.countP_append, hj, ← joinStage, ih,
      List.countP_cons]
    have : (decide (jProj j = cProj r0)) = (decide (cProj r = cProj r0)) := by
      rw [hjp]
    rw [List.countP_cons, List.countP_nil, this]
    omega

/- ------------------------------------------------------------------ -/
/- Claims C1 - C3                                                      -/
/- ------------------------------------------------------------------ -/

/-- Claim C1, counterexample.  The claim asserts that for every input table
C and every aggregate table produced by AggregationStage the JoinStage
output has exactly as many rows as C, every C row appearing exactly once.
It fails: B rows ("o", "REQ-1") and ("o", "req-1") form two distinct
aggregate records whose case-folded join keys coincide, so the single C row
("o", "req-1") matches both and is duplicated by the left merge: the join
output has 2 rows for a 1-row C, and that C row's field projection appears
twice. -/
theorem C1_join_rowcount_cex :
    (joinStage (aggregateB [⟨"o", "REQ-1", "1", "u"⟩, ⟨"o", "req-1", "2", "v"⟩])
      [⟨"o", "req-1", "s", "t"⟩]).length = 2 ∧
    (joinStage (aggregateB [⟨"o", "REQ-1", "1", "u"⟩, ⟨"o", "req-1", "2", "v"⟩])
      [⟨"o", "req-1", "s", "t"⟩]).countP
      (fun j => decide (jProj j = cProj ⟨"o", "req-1", "s", "t"⟩)) = 2 := by
  decide

/-- Claim C1 (amended): provided the aggregate table's case-folded join keys
(owner_org, lowercased request_number) are pairwise distinct — which holds
unless two B groups of one owner have request numbers differing only in
casing — the JoinStage output has exactly one row per C row: its length
equals C's length (also for empty C), and every C-row field projection
occurs in the output exactly as often as in C. -/
theorem C1_join_rowcount_amended (b : List BRow) (c : List CRow)
    (h : ((aggregateB b).map aggKey).Nodup) :
    (joinStage (aggregateB b) c).length = c.length ∧
    ∀ r0 : CRow,
      (joinStage (aggregateB b) c).countP (fun j => decide (jProj j = cProj r0)) =
        c.countP (fun r => decide (cProj r = cProj r0)) :=
  ⟨joinStage_length_nodup _ _ h, fun r0 => joinStage_countP_nodup _ _ h r0⟩

/-- Claim C1, witness: the amended theorem at a concrete B and C (two C
rows, one matching the aggregate, one not). -/
theorem C1_join_rowcount_witness :
    (joinStage (aggregateB [⟨"o", "R1", "3", "U1"⟩])
      [⟨"o", "r1", "s", ""⟩, ⟨"o", "zz", "", ""⟩]).length = 2 :=
  (C1_join_rowcount_amended [⟨"o", "R1", "3", "U1"⟩]
    [⟨"o", "r1", "s", ""⟩, ⟨"o", "zz", "", ""⟩] (by decide)).1

/-- Claim C2, counterexample.  Identifiers "a" and "b" of owner "o" are both
substrings of the single joined row's haystack and fall in the same chunk,
yet MatchStage emits exactly one record — for "a", the leftmost match — and
none for "b": not one record per distinct matching identifier. -/
theorem C2_per_identifier_cex :
    substrB "a".data (haystack ⟨"o", "r1", zeroNum, "", "ab", ""⟩).data = true ∧
    substrB "b".data (haystack ⟨"o", "r1", zeroNum, "", "ab", ""⟩).data = true ∧
    (matchStage [⟨"o", "a"⟩, ⟨"o", "b"⟩]
      [⟨"o", "r1", zeroNum, "", "ab", ""⟩]).map (fun m => m.tracking_number) = ["a"] := by
  decide

/-- Claim C2 (amended): per chunk, MatchStage emits exactly ONE match record
for every joined row whose haystack contains at least one identifier of the
chunk — the str.extract of the leftmost regex match — rather than one record
per distinct matching identifier; distinct identifiers matching the same
haystack give rise to separate records only when they fall in different
chunks. -/
theorem C2_single_emission_amended (lutF : String → Option String)
    (chunk : List String) (bc : List JoinedRow) :
    (chunkMatches lutF chunk bc).length =
      (bc.filter (fun r => chunk.any (fun t => substrB t.data (haystack r).data))).length := by
  induction bc with
  | nil => rfl
  | cons r bc ih =>
    rw [chunkMatches, List.filterMap_cons, List.filter_cons, ← chunkMatches,
      ← scanAlt_isSome_eq_any chunk (haystack r).data]
    cases h : scanAlt chunk (haystack r).data with
    | none => simpa [h] using ih
    | some tm => simpa [h] using ih

/-- Claim C3, counterexample.  With identifiers "x" and "y" of owner "p" and
one joined row whose haystack contains both, chunk size 1 emits records for
"x" and "y" (they match in different chunks), while a single chunk holding
both identifiers emits only the record for "x": the final deduplicated
match sets differ, so chunking is not transparent. -/
theorem C3_chunking_cex :
    (matchStageSized 1 [⟨"p", "x"⟩, ⟨"p", "y"⟩]
      [⟨"p", "r", zeroNum, "", "xy", ""⟩]).map (fun m => m.tracking_number) = ["x", "y"] ∧
    (matchStageSized 2 [⟨"p", "x"⟩, ⟨"p", "y"⟩]
      [⟨"p", "r", zeroNum, "", "xy", ""⟩]).map (fun m => m.tracking_number) = ["x"] := by
  decide

/-- Claim C3 (amended): chunking is transparent for WHICH joined rows get
matched, though not for the emitted tracking numbers: for every chunk size
at least 1, a source projection (all match-record fields except
tracking_number) occurs in the output of matchStageSized at that size
exactly when it occurs in the output at chunk size 1. -/
theorem C3_chunking_rows_amended (size : Nat) (hs : 1 ≤ size) (a : List ARow)
    (bc : List JoinedRow) (j : String × String × NumVal × String × String × String) :
    (∃ m ∈ matchStageSized size a bc, mSourceProj m = j) ↔
      (∃ m ∈ matchStageSized 1 a bc, mSourceProj m = j) :=
  (matchProj_iff size hs a bc j).trans (matchProj_iff 1 (Nat.le_refl 1) a bc j).symm

/-- Claim C3, witness: the amended equivalence applied at chunk size 5 on a
concrete owner, identifier and joined row. -/
theorem C3_chunking_witness :
    ((∃ m ∈ matchStageSized 5 [⟨"zz", "k9"⟩] [⟨"zz", "Q", zeroNum, "", "k9!", ""⟩],
        mSourceProj m = ("zz", "Q", zeroNum, "", "k9!", "")) ↔
      (∃ m ∈ matchStageSized 1 [⟨"zz", "k9"⟩] [⟨"zz", "Q", zeroNum, "", "k9!", ""⟩],
        mSourceProj m = ("zz", "Q", zeroNum, "", "k9!", ""))) :=
  C3_chunking_rows_amended 5 (by decide) [⟨"zz", "k9"⟩]
    [⟨"zz", "Q", zeroNum, "", "k9!", ""⟩] ("zz", "Q", zeroNum, "", "k9!", "")

/- ------------------------------------------------------------------ -/
/- Claims C4 - C10                                                     -/
/- ------------------------------------------------------------------ -/

/-- Claim C4, counterexample.  Owner "q" has identifiers "AB12" and "xa" and
the joined row's haystack contains "xAB12y", so the lowercase form of "AB12"
occurs as a substring of the lowercased haystack; yet the single emitted
record carries tracking_number "xa" — the canonical form of the LEFTMOST
regex match — and no emitted record carries "AB12", contradicting the
universally stated conclusion. -/
theorem C4_canonical_casing_cex :
    substrB (lowerStr "AB12").data
      (haystack ⟨"q", "r9", zeroNum, "", "xAB12y", ""⟩).data = true ∧
    (matchStage [⟨"q", "AB12"⟩, ⟨"q", "xa"⟩]
      [⟨"q", "r9", zeroNum, "", "xAB12y", ""⟩]).map (fun m => m.tracking_number) = ["xa"] := by
  decide

/-- Claim C4 (amended): case-insensitive substring containment with no
word-boundary requirement, and canonical-casing recovery for the identifier
the engine extracts: if owner X has identifier t in A, t's lowercase form
occurs as a substring of the lowercased haystack of a joined row of X, t's
lowercase form is the only identifier of X occurring in that haystack, and t
is the only original casing of that lowercase form among X's identifiers,
then a match record is emitted for that joined row whose tracking_number is
the originally-cased t — not the lowercased matched text. -/
theorem C4_canonical_casing_amended (a : List ARow) (bc : List JoinedRow)
    (X t : String) (r : JoinedRow)
    (hr : r ∈ bc) (hro : r.owner_org = X)
    (hta : ∃ x ∈ a, x.owner_org = X ∧ x.tracking_number = t)
    (htne : t ≠ "")
    (hsub : substrB (lowerStr t).data (haystack r).data = true)
    (huniq : ∀ u ∈ tnList a X, substrB u.data (haystack r).data = true → u = lowerStr t)
    (hcase : ∀ x ∈ a, x.owner_org = X → lowerStr x.tracking_number = lowerStr t →
      x.tracking_number = t) :
    ∃ m ∈ matchStage a bc, m.tracking_number = t ∧ m.owner_org = r.owner_org ∧
      m.request_number = r.request_number ∧
      m.informal_requests_sum = r.informal_requests_sum ∧
      m.unique_identifiers = r.unique_identifiers ∧
      m.summary_en = r.summary_en ∧ m.summary_fr = r.summary_fr := by
  have hlower_ne : lowerStr t ≠ "" := by
    intro hl
    apply htne
    have hdata : t.data.map lowerChar = [] := by
      have : (lowerStr t).data = ("" : String).data := by rw [hl]
      simpa [lowerStr] using this
    have : t.data = [] := List.map_eq_nil_iff.mp hdata
    exact String.ext (by simpa using this)
  have hlc_mem : lowerStr t ∈ tnList a X := by
    rw [mem_tnList]
    rcases hta with ⟨x, hx, hxo, hxt⟩
    exact ⟨⟨x, hx, hxo, by rw [hxt]⟩, hlower_ne⟩
  have horg : X ∈ orgsOf a bc := by
    rw [mem_orgsOf]
    constructor
    · rcases hta with ⟨x, hx, hxo, _⟩
      exact List.mem_map.mpr ⟨x, hx, hxo⟩
    · exact List.mem_map.mpr ⟨r, hr, hro⟩
  have hchunk1 : 1 ≤ TN_REGEX_CHUNK := by decide
  rcases exists_chunk_of_mem TN_REGEX_CHUNK hchunk1 hlc_mem with ⟨chunk, hchunk, htc⟩
  rcases Option.isSome_iff_exists.mp
    (scanAlt_isSome_of chunk (haystack r).data (lowerStr t) htc hsub) with ⟨tm, htm⟩
  have htm_mem : tm ∈ tnList a X :=
    mem_of_mem_chunk TN_REGEX_CHUNK hchunk1 hchunk (scanAlt_eq_some_mem _ _ _ htm)
  have htm_eq : tm = lowerStr t := huniq tm htm_mem (scanAlt_eq_some_substr _ _ _ htm)
  subst htm_eq
  have hlut : lut a X (lowerStr t) = some t := by
    rw [lut, dictOfPairs_eq_getLast]
    have hmem_pair : (lowerStr t, t) ∈
        (aPairs a X).filter (fun p => decide (p.1 = lowerStr t)) := by
      rcases hta with ⟨x, hx, hxo, hxt⟩
      refine List.mem_filter.mpr ⟨?_, by simp⟩
      rw [aPairs, mem_dedupFirst, List.mem_map]
      exact ⟨x, List.mem_filter.mpr ⟨hx, by simpa using hxo⟩, by rw [hxt]⟩
    have hall : ∀ p ∈ (aPairs a X).filter (fun p => decide (p.1 = lowerStr t)),
        p = (lowerStr t, t) := by
      intro p hp
      rcases List.mem_filter.mp hp with ⟨hpa, hpk⟩
      rw [aPairs, mem_dedupFirst, List.mem_map] at hpa
      rcases hpa with ⟨x, hx, hpx⟩
      rcases List.mem_filter.mp hx with ⟨hxa, hxo⟩
      have hk : p.1 = lowerStr t := by simpa using hpk
      have hxlc : lowerStr x.tracking_number = lowerStr t := by rw [← hk, ← hpx]
      have hxt : x.tracking_number = t := hcase x hxa (by simpa using hxo) hxlc
      rw [← hpx, hxt]
    rw [getLast?_all_eq _ ?hne hall]
    · rfl
    · intro hnil
      rw [hnil] at hmem_pair
      exact List.not_mem_nil _ hmem_pair
  refine ⟨emitMatch (lut a X) (lowerStr t) r, ?_, ?_, rfl, rfl, rfl, rfl, rfl, rfl⟩
  · rw [matchStage]
    exact (mem_matchStageSized _ _ _ _).mpr ⟨X, horg,
      (mem_ownerMatchesSized _ _ _ _ _).mpr ⟨r, hr, hro, chunk, hchunk, lowerStr t, htm, rfl⟩⟩
  · show (lut a X (lowerStr t)).getD (lowerStr t) = t
    rw [hlut]
    rfl

/-- Claim C4, witness: the amended theorem at A = [("w", "AB-99")] and one
joined row of owner "w" whose haystack (lowercased with no word boundary)
contains "ab-99"; the emitted record carries the originally-cased "AB-99". -/
theorem C4_canonical_casing_witness :
    ∃ m ∈ matchStage [⟨"w", "AB-99"⟩]
        [⟨"w", "R7", zeroNum, "", "contains ab-99 here", ""⟩],
      m.tracking_number = "AB-99" ∧ m.owner_org = "w" ∧ m.request_number = "R7" ∧
      m.informal_requests_sum = zeroNum ∧ m.unique_identifiers = "" ∧
      m.summary_en = "contains ab-99 here" ∧ m.summary_fr = "" :=
  C4_canonical_casing_amended [⟨"w", "AB-99"⟩]
    [⟨"w", "R7", zeroNum, "", "contains ab-99 here", ""⟩] "w" "AB-99"
    ⟨"w", "R7", zeroNum, "", "contains ab-99 here", ""⟩
    (by decide) (by decide) (by decide) (by decide) (by decide) (by decide) (by decide)

/-- Claim C5: owner isolation.  Every record emitted by MatchStage belongs
to an owner present in BOTH A and the joined table (owners present in only
one side contribute zero output rows), and the record is the emission of a
joined row of that owner matched by an identifier of that same owner from
A: an identifier of owner X never produces a match against another owner's
haystack. -/
theorem C5_owner_isolation (a : List ARow) (bc : List JoinedRow) (m : MatchRec)
    (hm : m ∈ matchStage a bc) :
    (m.owner_org ∈ a.map (fun x => x.owner_org) ∧
      m.owner_org ∈ bc.map (fun r => r.owner_org)) ∧
    ∃ r ∈ bc, r.owner_org = m.owner_org ∧
      ∃ tm ∈ tnList a m.owner_org,
        (∃ x ∈ a, x.owner_org = m.owner_org ∧ lowerStr x.tracking_number = tm) ∧
        substrB tm.data (haystack r).data = true ∧
        m = emitMatch (lut a m.owner_org) tm r := by
  rw [matchStage] at hm
  rcases (mem_matchStageSized _ _ _ _).mp hm with ⟨org, horg, hmo⟩
  rcases (mem_ownerMatchesSized _ _ _ _ _).mp hmo with
    ⟨r, hr, hro, chunk, hchunk, tm, hscan, hemit⟩
  have hchunk1 : 1 ≤ TN_REGEX_CHUNK := by decide
  have hmo_eq : m.owner_org = org := by rw [hemit]; exact hro
  have htm_tn : tm ∈ tnList a org :=
    mem_of_mem_chunk _ hchunk1 hchunk (scanAlt_eq_some_mem _ _ _ hscan)
  rcases (mem_orgsOf a bc org).mp horg with ⟨ho1, ho2⟩
  rcases (mem_tnList a org tm).mp htm_tn with ⟨⟨x, hx, hxo, hxt⟩, _⟩
  rw [hmo_eq]
  exact ⟨⟨ho1, ho2⟩, r, hr, hro.symm ▸ hro, tm, htm_tn, ⟨x, hx, hxo, hxt⟩,
    scanAlt_eq_some_substr _ _ _ hscan, hemit⟩

/-- Claim C5, witness: the theorem applied to a concrete one-owner input and
its single emitted match record. -/
theorem C5_owner_isolation_witness :
    ((("o1" : String) ∈ ([⟨"o1", "T-1"⟩] : List ARow).map (fun x => x.owner_org)) ∧
      (("o1" : String) ∈ ([⟨"o1", "R1", zeroNum, "", "has t-1 inside", ""⟩] :
        List JoinedRow).map (fun r => r.owner_org))) ∧
    ∃ r ∈ ([⟨"o1", "R1", zeroNum, "", "has t-1 inside", ""⟩] : List JoinedRow),
      r.owner_org = "o1" ∧
      ∃ tm ∈ tnList [⟨"o1", "T-1"⟩] "o1",
        (∃ x ∈ ([⟨"o1", "T-1"⟩] : List ARow), x.owner_org = "o1" ∧
          lowerStr x.tracking_number = tm) ∧
        substrB tm.data (haystack r).data = true ∧
        (⟨"o1", "T-1", "R1", zeroNum, "", "has t-1 inside", ""⟩ : MatchRec) =
          emitMatch (lut [⟨"o1", "T-1"⟩] "o1") tm r :=
  C5_owner_isolation [⟨"o1", "T-1"⟩] [⟨"o1", "R1", zeroNum, "", "has t-1 inside", ""⟩]
    ⟨"o1", "T-1", "R1", zeroNum, "", "has t-1 inside", ""⟩ (by decide)

/-- Claim C6: the join is case-insensitive on request_number with zero/empty
defaults.  A C row is paired with an aggregate record exactly on equality of
the case-folded keys aggKey and cKey — so a B group "REQ-1" joins a C row
"req-1" of the same owner — and a C row matched by NO aggregate record
yields the joined row with informal_requests_sum = 0 and
unique_identifiers = "". -/
theorem C6_join_case_insensitive_defaults (aggs : List AggRec) (c : List CRow)
    (r : CRow) (hr : r ∈ c) :
    ((∀ g ∈ aggs, aggKey g ≠ cKey r) →
      ({ owner_org := r.owner_org, request_number := r.request_number,
         informal_requests_sum := zeroNum, unique_identifiers := "",
         summary_en := r.summary_en, summary_fr := r.summary_fr } : JoinedRow)
        ∈ joinStage aggs c) ∧
    (∀ g ∈ aggs, aggKey g = cKey r →
      ({ owner_org := r.owner_org, request_number := r.request_number,
         informal_requests_sum := fillnaZero g.informal_requests_sum,
         unique_identifiers := g.unique_identifiers,
         summary_en := r.summary_en, summary_fr := r.summary_fr } : JoinedRow)
        ∈ joinStage aggs c) := by
  have hblock : ∀ j : JoinedRow, j ∈ joinBlock aggs r → j ∈ joinStage aggs c := by
    intro j hj
    rw [joinStage, List.mem_flatMap]
    exact ⟨r, hr, hj⟩
  constructor
  · intro hnone
    apply hblock
    rw [joinBlock]
    have hnil : aggs.filter (fun g => decide (aggKey g = cKey r)) = [] := by
      rw [List.filter_eq_nil_iff]
      intro g hg
      simpa using hnone g hg
    rw [hnil]
    simp
  · intro g hg hkey
    apply hblock
    rw [joinBlock]
    have hgm : g ∈ aggs.filter (fun g => decide (aggKey g = cKey r)) :=
      List.mem_filter.mpr ⟨hg, by simpa using hkey⟩
    have hne : ¬ ((aggs.filter (fun g => decide (aggKey g = cKey r))).isEmpty = true) := by
      intro habs
      rw [List.isEmpty_iff.mp habs] at hgm
      exact List.not_mem_nil g hgm
    rw [if_neg hne]
    exact List.mem_map.mpr ⟨g, hgm, rfl⟩

/-- Claim C6, witness: the aggregate of the B group ("o", "REQ-1") joins the
C row ("o", "req-1") and the emitted row carries the summed measure and the
aggregated identifiers. -/
theorem C6_join_witness :
    ({ owner_org := "o", request_number := "req-1",
       informal_requests_sum := NumVal.val (normRat 3 1), unique_identifiers := "U1",
       summary_en := "s", summary_fr := "t" } : JoinedRow)
      ∈ joinStage (aggregateB [⟨"o", "REQ-1", "3", "U1"⟩]) [⟨"o", "req-1", "s", "t"⟩] :=
  (C6_join_case_insensitive_defaults (aggregateB [⟨"o", "REQ-1", "3", "U1"⟩])
      [⟨"o", "req-1", "s", "t"⟩] ⟨"o", "req-1", "s", "t"⟩ (by decide)).2
    ⟨"o", "REQ-1", NumVal.val (normRat 3 1), "U1"⟩ (by decide) (by decide)

/-- Claim C7: the text measure trims each value, discards values empty after
trimming, deduplicates, sorts ascending lexicographically and joins with
"; " (this is the definition agg_unique_identifiers itself, evaluated on the
stated examples), and a group whose values are all blank after trimming
yields the empty string — the function is total on strings, never null. -/
theorem C7_text_measure :
    agg_unique_identifiers ["b", "a", "a", ""] = "a; b" ∧
    agg_unique_identifiers ["", " "] = "" ∧
    ∀ series : List String, (∀ x ∈ series, trimStr x = "") →
      agg_unique_identifiers series = "" := by
  refine ⟨by decide, by decide, ?_⟩
  intro series hall
  rw [agg_unique_identifiers]
  have hnil : (series.map trimStr).filter (fun x => x != "") = [] := by
    rw [List.filter_eq_nil_iff]
    intro y hy
    rcases List.mem_map.mp hy with ⟨x, hx, hxy⟩
    rw [← hxy, hall x hx]
    simp
  rw [hnil]
  rfl

/-- Claim C7, witness: the all-blank case of the theorem at a concrete
group. -/
theorem C7_text_measure_witness :
    agg_unique_identifiers ["", "  ", "\t"] = "" :=
  C7_text_measure.2.2 ["", "  ", "\t"] (by decide)

/-- Claim C8: classification is total and exclusive.  The weak and strong
subsets partition any match-record list: their lengths add up to the total,
a record is in the weak subset exactly when its trimmed, lowercased
tracking_number is in the denylist, in the strong subset exactly otherwise,
and every record of the list lies in exactly one of the two. -/
theorem C8_classification_total (l : List MatchRec) :
    (weakOf l).length + (strongOf l).length = l.length ∧
    ∀ m ∈ l,
      (m ∈ weakOf l ↔ is_weak m.tracking_number = true) ∧
      (m ∈ strongOf l ↔ ¬ is_weak m.tracking_number = true) ∧
      ((m ∈ weakOf l ∧ m ∉ strongOf l) ∨ (m ∈ strongOf l ∧ m ∉ weakOf l)) := by
  constructor
  · exact length_filter_not_split (fun m => is_weak m.tracking_number) l
  · intro m hm
    have h1 : m ∈ weakOf l ↔ is_weak m.tracking_number = true := by
      rw [weakOf, List.mem_filter]
      simp [hm]
    have h2 : m ∈ strongOf l ↔ ¬ is_weak m.tracking_number = true := by
      rw [strongOf, List.mem_filter]
      simp [hm]
    refine ⟨h1, h2, ?_⟩
    by_cases h : is_weak m.tracking_number = true
    · exact Or.inl ⟨h1.mpr h, fun hc => (h2.mp hc) h⟩
    · exact Or.inr ⟨h2.mpr h, fun hc => h (h1.mp hc)⟩

/-- Claim C8, witness: the count identity of the theorem on a two-record
list, one weak ("na") and one strong ("BN-7"). -/
theorem C8_classification_witness :
    (weakOf [⟨"o", "na", "r", zeroNum, "", "", ""⟩,
      ⟨"o", "BN-7", "r", zeroNum, "", "", ""⟩]).length +
    (strongOf [⟨"o", "na", "r", zeroNum, "", "", ""⟩,
      ⟨"o", "BN-7", "r", zeroNum, "", "", ""⟩]).length =
    ([⟨"o", "na", "r", zeroNum, "", "", ""⟩,
      ⟨"o", "BN-7", "r", zeroNum, "", "", ""⟩] : List MatchRec).length :=
  (C8_classification_total [⟨"o", "na", "r", zeroNum, "", "", ""⟩,
    ⟨"o", "BN-7", "r", zeroNum, "", "", ""⟩]).1

/-- Claim C9: code bug.  The metric lexeme "inf" parses to positive infinity
under pd.to_numeric, and the only sanitisation the script performs is
fillna(0.0) (lines 97 and 123), which replaces NaN alone; the infinite sum
therefore survives aggregation, join and matching and reaches the
strong-matches artifact unconverted: the final payload holds a non-finite
numeric field even though the claim requires every non-finite value to be
coerced to 0 before serialization. -/
theorem C9_infinity_reaches_output :
    (strongOf (matchStage [⟨"o", "bn1"⟩]
      (joinStage (aggregateB [⟨"o", "R1", "inf", "U1"⟩]) [⟨"o", "r1", "see bn1", ""⟩]))).map
      (fun m => m.informal_requests_sum) = [NumVal.inf] ∧
    NumVal.inf.isFinite = false := by
  decide

/-- Claim C10: the canonical-casing lookup resolves last-wins over first
occurrences: for every A table, owner and lowercased key, the dict of line
151 returns the original casing of the LAST pair among the distinct
(lowercased, original) pairs of aPairs, which are kept in first-occurrence
order — i.e. the casing of the distinct pair whose first occurrence comes
latest in A's row order — and it is a pure function of A, hence
deterministic for a fixed A. -/
theorem C10_lut_last_wins (a : List ARow) (org k : String) :
    lut a org k =
      (((aPairs a org).filter (fun p => decide (p.1 = k))).getLast?).map (fun p => p.2) := by
  rw [lut]
  exact dictOfPairs_eq_getLast (aPairs a org) k
